import Mathlib

/-!
Verification of the pitch-meter application core (src/App.tsx) against its
natural-language specification.  The definitions below are a shallow
embedding of the source: JavaScript numbers are modelled as real numbers
(or as elements of a linear ordered field where the code is pure list
arithmetic), JS array indexing that can yield `undefined` is modelled with
`Option`, and the JS `%` operator on integers is `Int.tmod` (truncated
remainder, sign of the dividend).
-/

namespace PitchMeter

/-- Pitch-class alphabet, App.tsx line 9. -/
def NOTES : List String :=
  ["C", "C#", "D", "D#", "E", "F"] ++ ["F#", "G", "G#", "A", "A#", "B"]

/-- Semitone number computed by `getNote`, App.tsx line 12:
`12 * (Math.log2(frequency / 440) + 4)`. -/
noncomputable def noteNum (f : ℝ) : ℝ := 12 * (Real.logb 2 (f / 440) + 4)

/-- Pitch-class index, App.tsx line 13: `Math.round(noteNum) % 12`.
JS `%` is the truncated remainder, negative for negative dividends. -/
noncomputable def noteIndex (f : ℝ) : ℤ := Int.tmod (round (noteNum f)) 12

/-- Octave, App.tsx line 14: `Math.floor(noteNum / 12)`. -/
noncomputable def octaveOf (f : ℝ) : ℤ := ⌊noteNum f / 12⌋

/-- JS array access `NOTES[i]`: `undefined` (here `none`) outside `0..11`. -/
def noteAt (i : ℤ) : Option String := if 0 ≤ i then NOTES[i.toNat]? else none

/-- `getNote`, App.tsx lines 11-16, as the pair (pitch class, octave) that the
source interpolates into the returned string. -/
noncomputable def getNote (f : ℝ) : Option String × ℤ := (noteAt (noteIndex f), octaveOf f)

lemma round_eq_of_bounds (x : ℝ) (z : ℤ) (h1 : (z : ℝ) - 1 / 2 ≤ x) (h2 : x < (z : ℝ) + 1 / 2) :
    round x = z := by
  rw [round_eq]
  rw [Int.floor_eq_iff]
  constructor
  · linarith
  · linarith

lemma floor_eq_of_bounds (x : ℝ) (z : ℤ) (h1 : (z : ℝ) ≤ x) (h2 : x < (z : ℝ) + 1) :
    ⌊x⌋ = z := by
  rw [Int.floor_eq_iff]
  constructor
  · exact h1
  · linarith

lemma getNote_eq (f : ℝ) (z o : ℤ) (hz : round (noteNum f) = z) (ho : ⌊noteNum f / 12⌋ = o) :
    getNote f = (noteAt (Int.tmod z 12), o) := by
  unfold getNote noteIndex octaveOf
  rw [hz, ho]

lemma mul_logb_bounds (x : ℝ) (hx : 0 < x) (a b n : ℕ)
    (h1 : (2 : ℝ) ^ a < x ^ n) (h2 : x ^ n < (2 : ℝ) ^ b) :
    (a : ℝ) < n * Real.logb 2 x ∧ (n : ℝ) * Real.logb 2 x < b := by
  have hb2 : (1 : ℝ) < 2 := one_lt_two
  have k1 := Real.logb_lt_logb hb2 (by positivity) h1
  have k2 := Real.logb_lt_logb hb2 (by positivity) h2
  rw [Real.logb_pow, Real.logb_pow, Real.logb_self_eq_one hb2, mul_one] at k1 k2
  exact ⟨k1, k2⟩

lemma noteNum_440 : noteNum 440 = 48 := by
  unfold noteNum
  rw [div_self (by norm_num : (440 : ℝ) ≠ 0), Real.logb_one]
  norm_num

lemma noteNum_880 : noteNum 880 = 60 := by
  unfold noteNum
  rw [show (880 : ℝ) / 440 = 2 by norm_num, Real.logb_self_eq_one one_lt_two]
  norm_num

lemma noteNum_220 : noteNum 220 = 36 := by
  unfold noteNum
  rw [show (220 : ℝ) / 440 = 2⁻¹ by norm_num, Real.logb_inv,
    Real.logb_self_eq_one one_lt_two]
  norm_num

lemma noteNum_26163 : 38.5 < noteNum (26163 / 100) ∧ noteNum (26163 / 100) < 39.5 := by
  have h1 : (2 : ℝ) ^ 17 < ((44000 : ℝ) / 26163) ^ 24 := by
    rw [div_pow, lt_div_iff₀ (by positivity)]
    norm_num
  have h2 : ((44000 : ℝ) / 26163) ^ 24 < (2 : ℝ) ^ 19 := by
    rw [div_pow, div_lt_iff₀ (by positivity)]
    norm_num
  have hb := mul_logb_bounds ((44000 : ℝ) / 26163) (by norm_num) 17 19 24 h1 h2
  have hL1 : (17 : ℝ) < 24 * Real.logb 2 (44000 / 26163) := by exact_mod_cast hb.1
  have hL2 : (24 : ℝ) * Real.logb 2 (44000 / 26163) < 19 := by exact_mod_cast hb.2
  have hrw : noteNum (26163 / 100) = 48 - 12 * Real.logb 2 (44000 / 26163) := by
    unfold noteNum
    rw [show (26163 : ℝ) / 100 / 440 = ((44000 : ℝ) / 26163)⁻¹ by norm_num, Real.logb_inv]
    ring
  rw [hrw]
  constructor <;> [norm_num; norm_num] <;> linarith

lemma noteNum_20 : -6.5 < noteNum 20 ∧ noteNum 20 < -5.5 := by
  have h1 : (2 : ℝ) ^ 107 < (22 : ℝ) ^ 24 := by norm_num
  have h2 : (22 : ℝ) ^ 24 < (2 : ℝ) ^ 109 := by norm_num
  have hb := mul_logb_bounds 22 (by norm_num) 107 109 24 h1 h2
  have hL1 : (107 : ℝ) < 24 * Real.logb 2 22 := by exact_mod_cast hb.1
  have hL2 : (24 : ℝ) * Real.logb 2 22 < 109 := by exact_mod_cast hb.2
  have hrw : noteNum 20 = 48 - 12 * Real.logb 2 22 := by
    unfold noteNum
    rw [show (20 : ℝ) / 440 = (22 : ℝ)⁻¹ by norm_num, Real.logb_inv]
    ring
  rw [hrw]
  constructor <;> linarith

/-- C1: the spec claims `noteFor(440) = ("A", 4)`, `noteFor(880) = ("A", 5)`,
`noteFor(220) = ("A", 3)` and `noteFor(261.63) ≈ ("C", 4)`.  Evaluating the
source's `getNote` shows the code disagrees: 440 Hz maps to pitch class "C"
(index 0 of the alphabet, the 440 Hz reference is never rotated onto "A"),
880 Hz to "C5", 220 Hz to "C3", and 261.63 Hz to "D#3". -/
theorem C1_getNote_reference_values :
    getNote 440 = (some "C", 4) ∧ getNote 880 = (some "C", 5) ∧
      getNote 220 = (some "C", 3) ∧ getNote (26163 / 100) = (some "D#", 3) := by
  refine ⟨?_, ?_, ?_, ?_⟩
  · rw [getNote_eq 440 48 4 ?_ ?_]
    · rfl
    · rw [noteNum_440]
      exact round_eq_of_bounds _ 48 (by norm_num) (by norm_num)
    · rw [noteNum_440]
      exact floor_eq_of_bounds _ 4 (by norm_num) (by norm_num)
  · rw [getNote_eq 880 60 5 ?_ ?_]
    · rfl
    · rw [noteNum_880]
      exact round_eq_of_bounds _ 60 (by norm_num) (by norm_num)
    · rw [noteNum_880]
      exact floor_eq_of_bounds _ 5 (by norm_num) (by norm_num)
  · rw [getNote_eq 220 36 3 ?_ ?_]
    · rfl
    · rw [noteNum_220]
      exact round_eq_of_bounds _ 36 (by norm_num) (by norm_num)
    · rw [noteNum_220]
      exact floor_eq_of_bounds _ 3 (by norm_num) (by norm_num)
  · obtain ⟨hlo, hhi⟩ := noteNum_26163
    rw [getNote_eq (26163 / 100) 39 3 ?_ ?_]
    · rfl
    · exact round_eq_of_bounds _ 39 (by norm_num; linarith) (by push_cast; linarith)
    · exact floor_eq_of_bounds _ 3 (by push_cast; nlinarith) (by push_cast; nlinarith)

/-- C2: the spec claims the pitch-class index is always in `0..11` (a
non-negative mathematical modulo).  The code uses the JS truncated `%`: at
20 Hz the rounded semitone number is `-6`, `(-6) % 12 = -6`, and
`NOTES[-6]` is `undefined` — the code indexes outside the alphabet
(and returns octave `-1`). -/
theorem C2_getNote_indexes_outside_alphabet : getNote 20 = (none, -1) := by
  obtain ⟨hlo, hhi⟩ := noteNum_20
  rw [getNote_eq 20 (-6) (-1) ?_ ?_]
  · rfl
  · exact round_eq_of_bounds _ (-6) (by push_cast; linarith) (by push_cast; linarith)
  · exact floor_eq_of_bounds _ (-1) (by push_cast; nlinarith) (by push_cast; nlinarith)

/-- JS `array.slice(-n)`: the last `n` elements (the whole list when shorter). -/
def lastN {α : Type} (n : ℕ) (xs : List α) : List α := xs.drop (xs.length - n)

/-- One iteration of the smoothing loop in `updatePitch` (App.tsx lines 107-113):
`start = Math.max(0, i - smoothness)` (here ℕ subtraction, which clamps at 0),
`end = Math.min(newData.length, i + smoothness + 1)`,
`slice.reduce((a, b) => a + b, 0) / slice.length`. -/
def smoothAt {α : Type} [LinearOrderedField α] (r : ℕ) (xs : List α) (i : ℕ) : α :=
  let s := (xs.drop (i - r)).take (min xs.length (i + r + 1) - (i - r))
  s.sum / (s.length : α)

/-- The whole smoothing loop of `updatePitch` (App.tsx lines 106-113). -/
def smooth {α : Type} [LinearOrderedField α] (r : ℕ) (xs : List α) : List α :=
  (List.range xs.length).map (smoothAt r xs)

/-- The `setPitchData` updater of `updatePitch` (App.tsx lines 103-117):
append the pitch, smooth the whole list when `smoothness > 0`, and keep the
last 100 entries. -/
def pushPitch {α : Type} [LinearOrderedField α] (r : ℕ) (prevData : List α) (pitch : α) :
    List α :=
  let newData := prevData ++ [pitch]
  if 0 < r then lastN 100 (smooth r newData) else lastN 100 newData

/-- One bin-wise maximum pass of `updateCalibration` (App.tsx lines 58-60). -/
def updateProfile {α : Type} [LinearOrderedField α] (profile incoming : List α) : List α :=
  List.zipWith max profile incoming

/-- JS `Math.max(...xs)` on a non-empty array.  The empty case (JS `-Infinity`)
is given the junk value 0; every use below is on non-empty lists. -/
def listMax {α : Type} [LinearOrderedField α] (xs : List α) : α :=
  match xs with
  | [] => 0
  | a :: t => t.foldl max a

/-- The noise profile accumulated by `updateCalibration` after a list of
calibration frames: the first frame is copied (App.tsx line 56), later frames
are folded in with the element-wise maximum (lines 58-60); before any frame
the profile is the fresh zero array of line 47. -/
def partialProfile {α : Type} [LinearOrderedField α] (M : ℕ) (fs : List (List α)) : List α :=
  match fs with
  | [] => List.replicate M 0
  | f :: t => t.foldl updateProfile f

/-- Modelled from the spec's words (for comparison with the source): the
bin-wise maximum over all frames' spectra, bin by bin. -/
def binwiseMaxSpec {α : Type} [LinearOrderedField α] (M : ℕ) (fs : List (List α)) : List α :=
  (List.range M).map (fun i => listMax (fs.map (fun f => f.getD i 0)))

/-- Modelled from the spec's words (for comparison with the source): the
arithmetic mean of positions `[a, b)` of the input.  -/
def meanSpec {α : Type} [LinearOrderedField α] (xs : List α) (a b : ℕ) : α :=
  let idxs := List.range' a (b - a)
  (idxs.map (fun j => xs.getD j 0)).sum / (idxs.length : α)

/-- The spectral-subtraction step of `updatePitch` (App.tsx lines 94-98): when
noise cancellation is on and a profile exists, each sample becomes
`Math.max(0, input[i] - profile[i % profile.length])`; otherwise the frame is
untouched. -/
def applyGate {α : Type} [LinearOrderedField α] (cancelNoise : Bool)
    (profile? : Option (List α)) (input : List α) : List α :=
  match cancelNoise, profile? with
  | true, some profile =>
      input.mapIdx (fun i x => max 0 (x - profile.getD (i % profile.length) 0))
  | _, _ => input

/-- Configuration captured by the `updatePitch` / `updateCalibration` closures:
the `cancelNoise`, `smoothness` and `calibrationTime` React state values
(App.tsx lines 23, 25, 26). -/
structure Config where
  cancelNoise : Bool
  smoothness : ℕ
  calibrationTime : ℕ

/-- The mutable state of the component: `pitchData`, `currentNote` (where
`none` is the empty string of line 21), `isListening`, `isCalibrating`, the
refs `noiseFloorRef` / `noiseProfileRef` (lines 31-32, `none` is the initial
`null` profile), and the `calibrationFrames` counter local to
`calibrateNoise` (line 48). -/
structure AppState where
  pitchData : List ℝ
  currentNote : Option (Option String × ℤ)
  isListening : Bool
  isCalibrating : Bool
  noiseFloor : ℝ
  noiseProfile : Option (List ℝ)
  calibFrames : ℕ

/-- The state right after the component mounts (App.tsx lines 19-32). -/
def initialState : AppState :=
  { pitchData := [], currentNote := none, isListening := false, isCalibrating := false,
    noiseFloor := 0, noiseProfile := none, calibFrames := 0 }

/-- The synchronous prefix of `calibrateNoise` (App.tsx lines 45-49):
`setIsCalibrating(true)`, reset the profile to a fresh zero array of
`frequencyBinCount` (`M`) bins, reset the frame counter. -/
def calibrateStart (s : AppState) (M : ℕ) : AppState :=
  { s with isCalibrating := true, noiseProfile := some (List.replicate M 0), calibFrames := 0 }

/-- One `updateCalibration` invocation (App.tsx lines 51-71) consuming one
spectrum frame: copy it into the profile on the first round, otherwise fold
it in bin-wise with `max`; when the scheduled count
`calibrationTime * 60` is reached, clear `isCalibrating` and set
`noiseFloor = Math.max(...profile)`. -/
noncomputable def calibStep (c : Config) (s : AppState) (freqData : List ℝ) : AppState :=
  let profile := if s.calibFrames = 0 then freqData
    else updateProfile ((s.noiseProfile).getD []) freqData
  let n := s.calibFrames + 1
  if n < c.calibrationTime * 60 then
    { s with noiseProfile := some profile, calibFrames := n }
  else
    { s with noiseProfile := some profile, calibFrames := n,
             isCalibrating := false, noiseFloor := listMax profile }

/-- A whole calibration loop over a list of frames. -/
noncomputable def runCalib (c : Config) (s : AppState) (fs : List (List ℝ)) : AppState :=
  fs.foldl (calibStep c) s

/-- One `updatePitch` invocation (App.tsx lines 91-122): attenuate the frame
with `applyGate`, run the estimator (`detector.findPitch`, modelled as the
oracle `est`; `none` stands for the `null` / `NaN` results filtered on line
102), and if a pitch is returned and either noise cancellation is off or the
pitch exceeds the noise floor, push it through `pushPitch` and set the
current note; otherwise leave the state untouched. -/
noncomputable def updatePitch (est : List ℝ → Option ℝ) (c : Config) (s : AppState)
    (input : List ℝ) : AppState :=
  match est (applyGate c.cancelNoise s.noiseProfile input) with
  | some pitch =>
      if c.cancelNoise = false ∨ s.noiseFloor < pitch then
        { s with pitchData := pushPitch c.smoothness s.pitchData pitch,
                 currentNote := some (getNote pitch) }
      else s
  | none => s

/-- `stopListening` (App.tsx lines 131-144): stop the loop, clear
`isListening`, `pitchData` and `currentNote`.  The refs `noiseFloorRef` and
`noiseProfileRef` are not touched. -/
def stopListening (s : AppState) : AppState :=
  { s with isListening := false, pitchData := [], currentNote := none }

/-- The state effect of `startListening` (App.tsx lines 76-129) before any
frame is processed: when `cancelNoise` is set it begins a calibration
(line 88), and `isListening` becomes true. -/
def startListening (c : Config) (s : AppState) (M : ℕ) : AppState :=
  let s' := if c.cancelNoise then calibrateStart s M else s
  { s' with isListening := true }

/-- One scheduled animation-frame callback: either an `updateCalibration`
round (with its spectrum frame) or an `updatePitch` round (with its
time-domain frame).  The two `requestAnimationFrame` loops interleave in
some order; a trace is a list of such events. -/
inductive Ev where
  | calib (freqData : List ℝ)
  | pitch (input : List ℝ)

/-- Dispatch one event. -/
noncomputable def stepEv (est : List ℝ → Option ℝ) (c : Config) (s : AppState) : Ev → AppState
  | Ev.calib freqData => calibStep c s freqData
  | Ev.pitch input => updatePitch est c s input

/-- Run a trace of interleaved events. -/
noncomputable def runEvents (est : List ℝ → Option ℝ) (c : Config) (s : AppState)
    (es : List Ev) : AppState :=
  es.foldl (stepEv est c) s

/-- The calibration frames of a trace, in order. -/
def calibsOf (es : List Ev) : List (List ℝ) :=
  es.filterMap (fun e => match e with | Ev.calib f => some f | Ev.pitch _ => none)

/-- Modelled from the spec's words (for comparison with the source): the raw
list of accepted pitches a sequence of pitch frames produces: the estimate of
each attenuated frame, kept when the gate accepts it. -/
noncomputable def acceptedOf (est : List ℝ → Option ℝ) (c : Config) (s : AppState)
    (inputs : List (List ℝ)) : List ℝ :=
  inputs.filterMap (fun input =>
    match est (applyGate c.cancelNoise s.noiseProfile input) with
    | some pitch =>
        if c.cancelNoise = false ∨ s.noiseFloor < pitch then some pitch else none
    | none => none)

/-- Modelled from the spec's words (for comparison with the source): the
published history the spec prescribes — smooth the entire raw accepted-pitch
list with the current radius, then truncate to capacity from the tail. -/
noncomputable def publishedSpec (r : ℕ) (ps : List ℝ) : List ℝ :=
  lastN 100 (smooth r ps)

lemma drop_take_eq_map_range' {α : Type} [LinearOrderedField α] (xs : List α) :
    ∀ (n a : ℕ), a + n ≤ xs.length →
      (xs.drop a).take n = (List.range' a n).map (fun j => xs.getD j 0) := by
  intro n
  induction n with
  | zero => intro a _; simp
  | succ n ih =>
    intro a h
    have ha : a < xs.length := by omega
    rw [List.drop_eq_getElem_cons ha, List.take_succ_cons, List.range'_succ, List.map_cons,
      ih (a + 1) (by omega)]
    exact congrArg (· :: _) (List.getD_eq_getElem xs 0 ha).symm

lemma length_smooth {α : Type} [LinearOrderedField α] (r : ℕ) (xs : List α) :
    (smooth r xs).length = xs.length := by
  simp [smooth]

lemma getElem_smooth {α : Type} [LinearOrderedField α] (r : ℕ) (xs : List α) (i : ℕ)
    (h : i < (smooth r xs).length) : (smooth r xs)[i] = smoothAt r xs i := by
  simp [smooth]

lemma smoothAt_eq_meanSpec {α : Type} [LinearOrderedField α] (r : ℕ) (xs : List α) (i : ℕ)
    (hi : i < xs.length) :
    smoothAt r xs i = meanSpec xs (i - r) (min xs.length (i + r + 1)) := by
  unfold smoothAt meanSpec
  have hab : (i - r) + (min xs.length (i + r + 1) - (i - r)) ≤ xs.length := by omega
  rw [drop_take_eq_map_range' xs _ _ hab]
  simp

lemma smooth_zero {α : Type} [LinearOrderedField α] (xs : List α) : smooth 0 xs = xs := by
  apply List.ext_getElem
  · simp [smooth]
  · intro n h1 h2
    rw [getElem_smooth 0 xs n h1]
    unfold smoothAt
    rw [show min xs.length (n + 0 + 1) - (n - 0) = 1 by omega]
    simp only [Nat.sub_zero]
    rw [List.drop_eq_getElem_cons h2,
      show List.take 1 (xs[n] :: List.drop (n + 1) xs) = [xs[n]] from rfl]
    simp

lemma mem_smooth {α : Type} [LinearOrderedField α] (r : ℕ) (xs : List α) (y : α)
    (hy : y ∈ smooth r xs) : ∃ i, i < xs.length ∧ y = smoothAt r xs i := by
  unfold smooth at hy
  obtain ⟨i, hi, hv⟩ := List.mem_map.mp hy
  exact ⟨i, List.mem_range.mp hi, hv.symm⟩

lemma mul_length_lt_sum {α : Type} [LinearOrderedField α] (F : α) :
    ∀ s : List α, s ≠ [] → (∀ x ∈ s, F < x) → F * (s.length : α) < s.sum := by
  intro s
  induction s with
  | nil => intro h; exact absurd rfl h
  | cons a t ih =>
    intro _ h
    rcases eq_or_ne t [] with rfl | hne
    · simpa using h a (List.mem_cons_self a [])
    · have h1 : F < a := h a (List.mem_cons_self a t)
      have h2 := ih hne (fun x hx => h x (List.mem_cons_of_mem a hx))
      simp only [List.length_cons, List.sum_cons]
      push_cast
      ring_nf
      ring_nf at h2
      linarith

lemma lt_smoothAt {α : Type} [LinearOrderedField α] (F : α) (r : ℕ) (ys : List α) (i : ℕ)
    (h : i < ys.length) (hall : ∀ x ∈ ys, F < x) : F < smoothAt r ys i := by
  unfold smoothAt
  set s := (ys.drop (i - r)).take (min ys.length (i + r + 1) - (i - r)) with hs
  have hsub : ∀ x ∈ s, F < x := by
    intro x hx
    exact hall x
      (List.Sublist.mem (List.Sublist.mem hx (List.take_sublist _ _)) (List.drop_sublist _ _))
  have hlen : s.length = min ys.length (i + r + 1) - (i - r) := by
    rw [hs, List.length_take, List.length_drop]
    omega
  have hne : s ≠ [] := by
    intro hnil
    rw [hnil] at hlen
    simp at hlen
    omega
  have hpos : (0 : α) < (s.length : α) := by
    have := List.length_pos.mpr hne
    exact_mod_cast this
  rw [lt_div_iff₀ hpos]
  exact mul_length_lt_sum F s hne hsub

lemma mem_lastN {α : Type} (n : ℕ) (xs : List α) (y : α) (hy : y ∈ lastN n xs) : y ∈ xs :=
  List.Sublist.mem hy (List.drop_sublist _ _)

lemma lt_of_mem_pushPitch {α : Type} [LinearOrderedField α] (F : α) (r : ℕ) (xs : List α)
    (p : α) (hxs : ∀ x ∈ xs, F < x) (hp : F < p) : ∀ y ∈ pushPitch r xs p, F < y := by
  intro y hy
  have hall : ∀ x ∈ xs ++ [p], F < x := by
    intro x hx
    rcases List.mem_append.mp hx with h | h
    · exact hxs x h
    · rw [List.mem_singleton.mp h]
      exact hp
  unfold pushPitch at hy
  by_cases hr : 0 < r
  · rw [if_pos hr] at hy
    have hy' : y ∈ smooth r (xs ++ [p]) := mem_lastN _ _ _ hy
    obtain ⟨i, hi, rfl⟩ := mem_smooth _ _ _ hy'
    exact lt_smoothAt F r (xs ++ [p]) i hi hall
  · rw [if_neg hr] at hy
    exact hall y (mem_lastN _ _ _ hy)

/-- C5: for every input sequence `xs` and radius `r`, the smoothing loop
returns a sequence of the same length whose position `i` is the arithmetic
mean of input positions `[max(0, i-r), min(len, i+r+1))` (ℕ subtraction is
the `max(0, ·)` clamp), and with radius 0 it is the identity. -/
theorem C5_smoother (α : Type) [LinearOrderedField α] (xs : List α) (r : ℕ) :
    (smooth r xs).length = xs.length ∧ smooth 0 xs = xs ∧
      ∀ i, i < xs.length →
        (smooth r xs).getD i 0 = meanSpec xs (i - r) (min xs.length (i + r + 1)) := by
  refine ⟨length_smooth r xs, smooth_zero xs, fun i hi => ?_⟩
  have hi' : i < (smooth r xs).length := by rw [length_smooth]; exact hi
  rw [List.getD_eq_getElem _ 0 hi', getElem_smooth r xs i hi', smoothAt_eq_meanSpec r xs i hi]

/-- Witness for C5 at a concrete input. -/
theorem C5_smoother_witness :
    (0 : ℕ) < 3 ∧
      (smooth 1 ([1, 3, 5] : List ℚ)).getD 0 0 = meanSpec [1, 3, 5] (0 - 1) (min 3 (0 + 1 + 1)) := by
  constructor
  · decide
  · have h := (C5_smoother ℚ [1, 3, 5] 1).2.2 0 (by decide)
    simpa using h

lemma length_lastN_le {α : Type} (n : ℕ) (xs : List α) : (lastN n xs).length ≤ n := by
  unfold lastN
  rw [List.length_drop]
  omega

lemma length_pushPitch_le {α : Type} [LinearOrderedField α] (r : ℕ) (xs : List α) (p : α) :
    (pushPitch r xs p).length ≤ 100 := by
  unfold pushPitch
  by_cases hr : 0 < r
  · rw [if_pos hr]
    exact length_lastN_le _ _
  · rw [if_neg hr]
    exact length_lastN_le _ _

lemma calibStep_pitch_fields (c : Config) (s : AppState) (f : List ℝ) :
    (calibStep c s f).pitchData = s.pitchData ∧
      (calibStep c s f).currentNote = s.currentNote ∧
      (calibStep c s f).isListening = s.isListening := by
  unfold calibStep
  by_cases h : s.calibFrames + 1 < c.calibrationTime * 60 <;> simp [h]

lemma updatePitch_calib_fields (est : List ℝ → Option ℝ) (c : Config) (s : AppState)
    (input : List ℝ) :
    (updatePitch est c s input).noiseFloor = s.noiseFloor ∧
      (updatePitch est c s input).noiseProfile = s.noiseProfile ∧
      (updatePitch est c s input).calibFrames = s.calibFrames ∧
      (updatePitch est c s input).isCalibrating = s.isCalibrating ∧
      (updatePitch est c s input).isListening = s.isListening := by
  unfold updatePitch
  cases est (applyGate c.cancelNoise s.noiseProfile input) with
  | none => exact ⟨rfl, rfl, rfl, rfl, rfl⟩
  | some p => by_cases h : c.cancelNoise = false ∨ s.noiseFloor < p <;> simp [h]

lemma updatePitch_accept (est : List ℝ → Option ℝ) (c : Config) (s : AppState)
    (input : List ℝ) (p : ℝ)
    (hp : est (applyGate c.cancelNoise s.noiseProfile input) = some p)
    (hacc : c.cancelNoise = false ∨ s.noiseFloor < p) :
    updatePitch est c s input =
      { s with pitchData := pushPitch c.smoothness s.pitchData p,
               currentNote := some (getNote p) } := by
  unfold updatePitch
  rw [hp]
  simp [hacc]

lemma updatePitch_none (est : List ℝ → Option ℝ) (c : Config) (s : AppState)
    (input : List ℝ) (hp : est (applyGate c.cancelNoise s.noiseProfile input) = none) :
    updatePitch est c s input = s := by
  unfold updatePitch
  rw [hp]

lemma updatePitch_rejected (est : List ℝ → Option ℝ) (c : Config) (s : AppState)
    (input : List ℝ) (p : ℝ)
    (hp : est (applyGate c.cancelNoise s.noiseProfile input) = some p)
    (h1 : c.cancelNoise = true) (h2 : ¬s.noiseFloor < p) :
    updatePitch est c s input = s := by
  unfold updatePitch
  rw [hp]
  have hcond : ¬(c.cancelNoise = false ∨ s.noiseFloor < p) := by
    intro hor
    rcases hor with h | h
    · rw [h1] at h
      exact Bool.noConfusion h
    · exact h2 h
  simp [hcond]

lemma length_pitchData_stepEv (est : List ℝ → Option ℝ) (c : Config) (s : AppState)
    (e : Ev) (h : s.pitchData.length ≤ 100) : (stepEv est c s e).pitchData.length ≤ 100 := by
  cases e with
  | calib f =>
      rw [show (stepEv est c s (Ev.calib f)) = calibStep c s f from rfl,
        (calibStep_pitch_fields c s f).1]
      exact h
  | pitch input =>
      rw [show (stepEv est c s (Ev.pitch input)) = updatePitch est c s input from rfl]
      cases hp : est (applyGate c.cancelNoise s.noiseProfile input) with
      | none =>
          rw [updatePitch_none est c s input hp]
          exact h
      | some p =>
          by_cases hacc : c.cancelNoise = false ∨ s.noiseFloor < p
          · rw [updatePitch_accept est c s input p hp hacc]
            exact length_pushPitch_le _ _ _
          · push_neg at hacc
            have h1 : c.cancelNoise = true := by
              have := hacc.1
              revert this
              cases c.cancelNoise <;> simp
            rw [updatePitch_rejected est c s input p hp h1 (not_lt.mpr hacc.2)]
            exact h

lemma length_pitchData_runEvents (est : List ℝ → Option ℝ) (c : Config) :
    ∀ (es : List Ev) (s : AppState), s.pitchData.length ≤ 100 →
      (runEvents est c s es).pitchData.length ≤ 100 := by
  intro es
  induction es with
  | nil => intro s h; exact h
  | cons e t ih =>
      intro s h
      exact ih (stepEv est c s e) (length_pitchData_stepEv est c s e h)

/-- C9: the noise gate's apply step preserves the frame length; with noise
cancellation on and a profile present each sample `i` becomes
`max 0 (input[i] - profile[i % profile.length])`; with cancellation off or no
profile the frame passes through unchanged. -/
theorem C9_apply_gate (α : Type) [LinearOrderedField α] (cancelNoise : Bool)
    (profile input : List α) :
    (∀ profile? : Option (List α),
        (applyGate cancelNoise profile? input).length = input.length) ∧
      (∀ i, i < input.length →
        (applyGate true (some profile) input).getD i 0 =
          max 0 (input.getD i 0 - profile.getD (i % profile.length) 0)) ∧
      applyGate false (some profile) input = input ∧
      applyGate cancelNoise none input = input := by
  refine ⟨?_, ?_, ?_, ?_⟩
  · intro profile?
    cases cancelNoise with
    | false => cases profile? <;> rfl
    | true =>
        cases profile? with
        | none => rfl
        | some prof =>
            show (input.mapIdx _).length = input.length
            exact List.length_mapIdx
  · intro i hi
    have hi' : i < (input.mapIdx
        (fun i x => max 0 (x - profile.getD (i % profile.length) 0))).length := by
      rw [List.length_mapIdx]
      exact hi
    show (input.mapIdx
        (fun i x => max 0 (x - profile.getD (i % profile.length) 0))).getD i 0 =
      max 0 (input.getD i 0 - profile.getD (i % profile.length) 0)
    rw [List.getD_eq_getElem _ 0 hi', List.getElem_mapIdx, List.getD_eq_getElem _ 0 hi]
  · rfl
  · cases cancelNoise <;> rfl

/-- Witness for C9 at a concrete input. -/
theorem C9_apply_gate_witness :
    (applyGate true (some [2, 5]) ([10, 3, 4] : List ℚ)).getD 0 0 = 8 ∧
      (applyGate true (some [2, 5]) ([10, 3, 4] : List ℚ)).getD 2 0 = 2 := by
  have h0 := (C9_apply_gate ℚ true [2, 5] [10, 3, 4]).2.1 0 (by decide)
  have h2 := (C9_apply_gate ℚ true [2, 5] [10, 3, 4]).2.1 2 (by decide)
  constructor
  · rw [h0]
    norm_num
  · rw [h2]
    norm_num

/-- C7: the published pitch history never exceeds the 100-entry capacity
after any number of ticks, and when an append with smoothing off overflows
the bound, entries are dropped from the front — the oldest first, keeping
oldest-first, newest-last order. -/
theorem C7_history_capacity (est : List ℝ → Option ℝ) (c : Config) (s : AppState)
    (es : List Ev) (h : s.pitchData.length ≤ 100) :
    (runEvents est c s es).pitchData.length ≤ 100 ∧
      (∀ (xs : List ℝ) (p : ℝ),
        pushPitch 0 xs p = (xs ++ [p]).drop (xs.length + 1 - 100)) ∧
      ∀ (xs : List ℝ) (p : ℝ), xs.length = 100 → pushPitch 0 xs p = xs.tail ++ [p] := by
  refine ⟨length_pitchData_runEvents est c es s h, ?_, ?_⟩
  · intro xs p
    unfold pushPitch lastN
    rw [if_neg (by omega)]
    rw [List.length_append]
    rfl
  · intro xs p hlen
    unfold pushPitch lastN
    rw [if_neg (by omega)]
    rw [List.length_append, hlen]
    rw [show (100 + [p].length - 100 : ℕ) = 1 by simp]
    rw [List.drop_append_of_le_length (by omega), List.drop_one]

/-- Witness for C7 at a concrete input. -/
theorem C7_history_capacity_witness :
    (runEvents (fun l => l.head?) ⟨false, 0, 5⟩ initialState []).pitchData.length ≤ 100 :=
  (C7_history_capacity (fun l => l.head?) ⟨false, 0, 5⟩ initialState []
    (by simp [initialState])).1

/-- C3: a per-tick estimate is appended to the history and updates the
current note exactly when it is present and either noise cancellation is off
or the pitch is strictly above the noise floor; an absent or rejected
estimate leaves the state exactly unchanged.  With noise cancellation on,
values at or below the floor never enter the history (all entries stay
strictly above the floor), an accepted pitch becomes the current note, and
with smoothing off it is the last history entry. -/
theorem C3_acceptance (est : List ℝ → Option ℝ) (c : Config) (s : AppState)
    (input : List ℝ) :
    (est (applyGate c.cancelNoise s.noiseProfile input) = none →
        updatePitch est c s input = s) ∧
      (∀ p, est (applyGate c.cancelNoise s.noiseProfile input) = some p →
        c.cancelNoise = true → p ≤ s.noiseFloor → updatePitch est c s input = s) ∧
      (∀ p, est (applyGate c.cancelNoise s.noiseProfile input) = some p →
        (c.cancelNoise = false ∨ s.noiseFloor < p) →
        (updatePitch est c s input).pitchData = pushPitch c.smoothness s.pitchData p ∧
          (updatePitch est c s input).currentNote = some (getNote p) ∧
          (c.smoothness = 0 → (updatePitch est c s input).pitchData.getLast? = some p)) ∧
      (c.cancelNoise = true → (∀ x ∈ s.pitchData, s.noiseFloor < x) →
        ∀ x ∈ (updatePitch est c s input).pitchData, s.noiseFloor < x) := by
  refine ⟨updatePitch_none est c s input, ?_, ?_, ?_⟩
  · intro p hp h1 h2
    exact updatePitch_rejected est c s input p hp h1 (not_lt.mpr h2)
  · intro p hp hacc
    rw [updatePitch_accept est c s input p hp hacc]
    refine ⟨rfl, rfl, fun h0 => ?_⟩
    show (pushPitch c.smoothness s.pitchData p).getLast? = some p
    rw [h0]
    unfold pushPitch lastN
    rw [if_neg (by omega)]
    rw [List.length_append]
    rw [show (s.pitchData.length + [p].length - 100 : ℕ) =
      min (s.pitchData.length + 1 - 100) s.pitchData.length by simp]
    rw [List.drop_append_of_le_length (by omega)]
    exact List.getLast?_concat _
  · intro h1 hall x hx
    cases hp : est (applyGate c.cancelNoise s.noiseProfile input) with
    | none =>
        rw [updatePitch_none est c s input hp] at hx
        exact hall x hx
    | some p =>
        by_cases hacc : c.cancelNoise = false ∨ s.noiseFloor < p
        · rw [updatePitch_accept est c s input p hp hacc] at hx
          have hpF : s.noiseFloor < p := by
            rcases hacc with h | h
            · rw [h1] at h
              exact Bool.noConfusion h
            · exact h
          exact lt_of_mem_pushPitch s.noiseFloor c.smoothness s.pitchData p hall hpF x hx
        · push_neg at hacc
          rw [updatePitch_rejected est c s input p hp h1 (not_lt.mpr hacc.2)] at hx
          exact hall x hx

/-- Witness for C3 at a concrete input. -/
theorem C3_acceptance_witness :
    (updatePitch (fun l => l.head?) ⟨true, 0, 5⟩ initialState [500]).pitchData =
        pushPitch 0 initialState.pitchData 500 ∧
      (updatePitch (fun l => l.head?) ⟨true, 0, 5⟩ initialState [500]).currentNote =
        some (getNote 500) := by
  have h := (C3_acceptance (fun l => l.head?) ⟨true, 0, 5⟩ initialState [500]).2.2.1 500
    rfl (Or.inr (by norm_num [initialState]))
  exact ⟨h.1, h.2.1⟩

lemma length_updateProfile {α : Type} [LinearOrderedField α] (a f : List α) (M : ℕ)
    (ha : a.length = M) (hf : f.length = M) : (updateProfile a f).length = M := by
  unfold updateProfile
  rw [List.length_zipWith, ha, hf, min_self]

lemma getD_updateProfile {α : Type} [LinearOrderedField α] (a f : List α) (M i : ℕ)
    (ha : a.length = M) (hf : f.length = M) (hi : i < M) :
    (updateProfile a f).getD i 0 = max (a.getD i 0) (f.getD i 0) := by
  have hlen : (updateProfile a f).length = M := length_updateProfile a f M ha hf
  have hi1 : i < (updateProfile a f).length := by omega
  have hi2 : i < a.length := by omega
  have hi3 : i < f.length := by omega
  rw [List.getD_eq_getElem _ 0 hi1, List.getD_eq_getElem _ 0 hi2, List.getD_eq_getElem _ 0 hi3]
  exact List.getElem_zipWith

lemma length_foldl_updateProfile {α : Type} [LinearOrderedField α] (M : ℕ) :
    ∀ (fs : List (List α)) (acc : List α), acc.length = M → (∀ f ∈ fs, f.length = M) →
      (fs.foldl updateProfile acc).length = M := by
  intro fs
  induction fs with
  | nil => intro acc ha _; exact ha
  | cons f t ih =>
      intro acc ha hf
      exact ih (updateProfile acc f)
        (length_updateProfile acc f M ha (hf f (List.mem_cons_self f t)))
        (fun g hg => hf g (List.mem_cons_of_mem f hg))

lemma getD_foldl_updateProfile {α : Type} [LinearOrderedField α] (M i : ℕ) (hi : i < M) :
    ∀ (fs : List (List α)) (acc : List α), acc.length = M → (∀ f ∈ fs, f.length = M) →
      (fs.foldl updateProfile acc).getD i 0 =
        fs.foldl (fun b f => max b (f.getD i 0)) (acc.getD i 0) := by
  intro fs
  induction fs with
  | nil => intro acc _ _; rfl
  | cons f t ih =>
      intro acc ha hf
      have hfM := hf f (List.mem_cons_self f t)
      rw [List.foldl_cons, List.foldl_cons,
        ih (updateProfile acc f) (length_updateProfile acc f M ha hfM)
          (fun g hg => hf g (List.mem_cons_of_mem f hg)),
        getD_updateProfile acc f M i ha hfM hi]

lemma length_binwiseMaxSpec {α : Type} [LinearOrderedField α] (M : ℕ) (fs : List (List α)) :
    (binwiseMaxSpec M fs).length = M := by
  simp [binwiseMaxSpec]

lemma getD_binwiseMaxSpec {α : Type} [LinearOrderedField α] (M i : ℕ) (hi : i < M)
    (fs : List (List α)) :
    (binwiseMaxSpec M fs).getD i 0 = listMax (fs.map (fun f => f.getD i 0)) := by
  unfold binwiseMaxSpec
  have hi' : i < ((List.range M).map
      (fun j => listMax (fs.map (fun f => f.getD j 0)))).length := by
    rw [List.length_map, List.length_range]
    exact hi
  rw [List.getD_eq_getElem _ 0 hi', List.getElem_map, List.getElem_range]

lemma partialProfile_eq_binwiseMaxSpec {α : Type} [LinearOrderedField α] (M : ℕ)
    (fs : List (List α)) (hne : fs ≠ []) (hM : ∀ f ∈ fs, f.length = M) :
    partialProfile M fs = binwiseMaxSpec M fs := by
  cases fs with
  | nil => exact absurd rfl hne
  | cons f t =>
      have hfM : f.length = M := hM f (List.mem_cons_self f t)
      have htM : ∀ g ∈ t, g.length = M := fun g hg => hM g (List.mem_cons_of_mem f hg)
      have hlen : (partialProfile M (f :: t)).length = M := by
        show (t.foldl updateProfile f).length = M
        exact length_foldl_updateProfile M t f hfM htM
      apply List.ext_getElem
      · rw [hlen, length_binwiseMaxSpec]
      · intro i h1 h2
        have hi : i < M := by rw [hlen] at h1; exact h1
        rw [← List.getD_eq_getElem _ 0 h1, ← List.getD_eq_getElem _ 0 h2]
        show (t.foldl updateProfile f).getD i 0 = (binwiseMaxSpec M (f :: t)).getD i 0
        rw [getD_foldl_updateProfile M i hi t f hfM htM, getD_binwiseMaxSpec M i hi (f :: t)]
        show _ = listMax ((f.getD i 0) :: t.map (fun g => g.getD i 0))
        show _ = (t.map (fun g => g.getD i 0)).foldl max (f.getD i 0)
        rw [List.foldl_map]

lemma partialProfile_snoc {α : Type} [LinearOrderedField α] (M : ℕ) (gs : List (List α))
    (f : List α) :
    partialProfile M (gs ++ [f]) =
      if gs = [] then f else updateProfile (partialProfile M gs) f := by
  cases gs with
  | nil => simp [partialProfile]
  | cons g t =>
      rw [if_neg (by simp)]
      show (t ++ [f]).foldl updateProfile g = updateProfile (t.foldl updateProfile g) f
      rw [List.foldl_append]
      rfl

lemma calibStep_profile_frames (c : Config) (s : AppState) (f : List ℝ) :
    (calibStep c s f).noiseProfile = some (if s.calibFrames = 0 then f
        else updateProfile ((s.noiseProfile).getD []) f) ∧
      (calibStep c s f).calibFrames = s.calibFrames + 1 := by
  unfold calibStep
  by_cases h : s.calibFrames + 1 < c.calibrationTime * 60 <;> simp [h]

lemma calibStep_incomplete (c : Config) (s : AppState) (f : List ℝ)
    (h : s.calibFrames + 1 < c.calibrationTime * 60) :
    (calibStep c s f).noiseFloor = s.noiseFloor ∧
      (calibStep c s f).isCalibrating = s.isCalibrating := by
  unfold calibStep
  simp [h]

lemma calibStep_complete (c : Config) (s : AppState) (f : List ℝ)
    (h : ¬s.calibFrames + 1 < c.calibrationTime * 60) :
    (calibStep c s f).noiseFloor = listMax (((calibStep c s f).noiseProfile).getD []) ∧
      (calibStep c s f).isCalibrating = false := by
  unfold calibStep
  simp [h]

lemma runCalib_cons (c : Config) (s : AppState) (f : List ℝ) (t : List (List ℝ)) :
    runCalib c s (f :: t) = runCalib c (calibStep c s f) t := rfl

lemma runCalib_profile (c : Config) (M : ℕ) :
    ∀ (fs : List (List ℝ)) (s : AppState) (gs : List (List ℝ)),
      s.calibFrames = gs.length → s.noiseProfile = some (partialProfile M gs) →
      (runCalib c s fs).noiseProfile = some (partialProfile M (gs ++ fs)) ∧
        (runCalib c s fs).calibFrames = gs.length + fs.length := by
  intro fs
  induction fs with
  | nil =>
      intro s gs h1 h2
      exact ⟨by simpa using h2, by simpa using h1⟩
  | cons f t ih =>
      intro s gs h1 h2
      rw [runCalib_cons]
      have hpf := calibStep_profile_frames c s f
      have hprof : (calibStep c s f).noiseProfile = some (partialProfile M (gs ++ [f])) := by
        rw [hpf.1, partialProfile_snoc, h2, h1]
        by_cases hgs : gs = []
        · rw [if_pos hgs, if_pos (by rw [hgs]; rfl)]
        · rw [if_neg hgs, if_neg (by simpa [List.length_eq_zero] using hgs)]
          rfl
      have hfr : (calibStep c s f).calibFrames = (gs ++ [f]).length := by
        rw [hpf.2, h1, List.length_append, List.length_singleton]
      have := ih (calibStep c s f) (gs ++ [f]) hfr hprof
      refine ⟨?_, ?_⟩
      · rw [this.1, List.append_assoc, List.singleton_append]
      · rw [this.2, List.length_append, List.length_singleton, List.length_cons]
        omega

lemma runCalib_floor_incomplete (c : Config) :
    ∀ (fs : List (List ℝ)) (s : AppState),
      s.calibFrames + fs.length < c.calibrationTime * 60 →
      (runCalib c s fs).noiseFloor = s.noiseFloor ∧
        (runCalib c s fs).isCalibrating = s.isCalibrating := by
  intro fs
  induction fs with
  | nil => intro s _; exact ⟨rfl, rfl⟩
  | cons f t ih =>
      intro s h
      rw [List.length_cons] at h
      have hlt : s.calibFrames + 1 < c.calibrationTime * 60 := by omega
      have hstep := calibStep_incomplete c s f hlt
      have hframes := (calibStep_profile_frames c s f).2
      rw [runCalib_cons]
      have hrec := ih (calibStep c s f) (by rw [hframes]; omega)
      exact ⟨hrec.1.trans hstep.1, hrec.2.trans hstep.2⟩

lemma runCalib_floor_final (c : Config) :
    ∀ (fs : List (List ℝ)) (s : AppState), fs ≠ [] →
      s.calibFrames + fs.length = c.calibrationTime * 60 →
      (runCalib c s fs).noiseFloor = listMax (((runCalib c s fs).noiseProfile).getD []) ∧
        (runCalib c s fs).isCalibrating = false := by
  intro fs
  induction fs with
  | nil => intro s h; exact absurd rfl h
  | cons f t ih =>
      intro s _ hsum
      rw [List.length_cons] at hsum
      rw [runCalib_cons]
      rcases eq_or_ne t [] with rfl | hne
      · have hc : ¬s.calibFrames + 1 < c.calibrationTime * 60 := by
          rw [List.length_nil] at hsum
          omega
        exact calibStep_complete c s f hc
      · have hframes := (calibStep_profile_frames c s f).2
        exact ih (calibStep c s f) hne (by rw [hframes]; omega)

/-- C4: for a calibration run consuming exactly the scheduled
`calibrationTime * 60` frames (at least one): starting the calibration
replaces whatever profile existed by a fresh zero profile; the finished
profile is the bin-wise maximum over all frames' spectra; the noise floor is
untouched at every proper prefix of the run and becomes `max(profile)` when
the last scheduled frame has been consumed, at which point calibration
ends. -/
theorem C4_calibration (c : Config) (s : AppState) (M : ℕ) (fs : List (List ℝ))
    (hlen : fs.length = c.calibrationTime * 60) (h1 : 1 ≤ c.calibrationTime * 60)
    (hM : ∀ f ∈ fs, f.length = M) :
    (calibrateStart s M).noiseProfile = some (List.replicate M 0) ∧
      (runCalib c (calibrateStart s M) fs).noiseProfile = some (binwiseMaxSpec M fs) ∧
      (∀ k, k < fs.length →
        (runCalib c (calibrateStart s M) (fs.take k)).noiseFloor = s.noiseFloor ∧
          (runCalib c (calibrateStart s M) (fs.take k)).isCalibrating = true) ∧
      (runCalib c (calibrateStart s M) fs).noiseFloor = listMax (binwiseMaxSpec M fs) ∧
      (runCalib c (calibrateStart s M) fs).isCalibrating = false := by
  have hne : fs ≠ [] := by
    intro hnil
    rw [hnil] at hlen
    rw [List.length_nil] at hlen
    omega
  have hprof := runCalib_profile c M fs (calibrateStart s M) [] rfl rfl
  have hprofEq : (runCalib c (calibrateStart s M) fs).noiseProfile =
      some (binwiseMaxSpec M fs) := by
    rw [hprof.1, List.nil_append, partialProfile_eq_binwiseMaxSpec M fs hne hM]
  have hfinal := runCalib_floor_final c fs (calibrateStart s M) hne
    (by show 0 + fs.length = c.calibrationTime * 60; omega)
  refine ⟨rfl, hprofEq, ?_, ?_, hfinal.2⟩
  · intro k hk
    have hinc := runCalib_floor_incomplete c (fs.take k) (calibrateStart s M) ?_
    · exact ⟨hinc.1, hinc.2⟩
    · show (calibrateStart s M).calibFrames + (fs.take k).length < c.calibrationTime * 60
      rw [List.length_take]
      show 0 + min k fs.length < c.calibrationTime * 60
      omega
  · rw [hfinal.1, hprofEq]
    rfl

/-- Witness for C4 at a concrete input. -/
theorem C4_calibration_witness :
    (runCalib ⟨false, 0, 1⟩ (calibrateStart initialState 1)
        (List.replicate 60 [(5 : ℝ)])).noiseProfile =
        some (binwiseMaxSpec 1 (List.replicate 60 [(5 : ℝ)])) ∧
      (runCalib ⟨false, 0, 1⟩ (calibrateStart initialState 1)
        (List.replicate 60 [(5 : ℝ)])).noiseFloor =
        listMax (binwiseMaxSpec 1 (List.replicate 60 [(5 : ℝ)])) := by
  have h := C4_calibration ⟨false, 0, 1⟩ initialState 1 (List.replicate 60 [(5 : ℝ)])
    (by simp) (by norm_num) (by intro f hf; rw [List.eq_of_mem_replicate hf]; rfl)
  exact ⟨h.2.1, h.2.2.2.1⟩

/-- C8 counterexample: the claim says a `stop()` followed by `start()` leaves
no residual calibration state.  In the code `stopListening` clears only
`isListening`, `pitchData` and `currentNote`; the refs `noiseFloorRef` and
`noiseProfileRef` survive.  Starting again (noise cancellation off) keeps
noise floor 7 and profile `[1, 2]` from the prior session. -/
theorem C8_residual_state_counterexample :
    (startListening ⟨false, 0, 5⟩
        (stopListening ⟨[3], none, true, false, 7, some [1, 2], 0⟩) 4).pitchData = [] ∧
      (startListening ⟨false, 0, 5⟩
        (stopListening ⟨[3], none, true, false, 7, some [1, 2], 0⟩) 4).noiseFloor = 7 ∧
      (startListening ⟨false, 0, 5⟩
        (stopListening ⟨[3], none, true, false, 7, some [1, 2], 0⟩) 4).noiseProfile =
        some [1, 2] ∧
      (7 : ℝ) ≠ 0 := by
  refine ⟨rfl, rfl, rfl, by norm_num⟩

/-- C8 (amended): `stop()` discards the pitch history and the current note,
and `stop()` followed by `start()` yields an empty history and no note — but
the noise floor always survives from the prior session, and the noise
profile survives as well when noise cancellation is off (a new calibration
resets it when cancellation is on). -/
theorem C8_stop_start (c : Config) (s : AppState) (M : ℕ) :
    (stopListening s).pitchData = [] ∧ (stopListening s).currentNote = none ∧
      (startListening c (stopListening s) M).pitchData = [] ∧
      (startListening c (stopListening s) M).currentNote = none ∧
      (startListening c (stopListening s) M).isListening = true ∧
      (startListening c (stopListening s) M).noiseFloor = s.noiseFloor ∧
      (c.cancelNoise = false →
        (startListening c (stopListening s) M).noiseProfile = s.noiseProfile) ∧
      (c.cancelNoise = true →
        (startListening c (stopListening s) M).noiseProfile =
          some (List.replicate M 0)) := by
  unfold startListening stopListening calibrateStart
  by_cases h : c.cancelNoise <;> simp [h]

/-- Witness for C8 at a concrete input. -/
theorem C8_stop_start_witness :
    (startListening ⟨false, 2, 5⟩ (stopListening initialState) 3).pitchData = [] ∧
      (startListening ⟨false, 2, 5⟩ (stopListening initialState) 3).noiseProfile =
        initialState.noiseProfile := by
  have h := C8_stop_start ⟨false, 2, 5⟩ initialState 3
  exact ⟨h.2.2.1, h.2.2.2.2.2.2.1 rfl⟩

lemma acceptedOf_congr (est : List ℝ → Option ℝ) (c : Config) (s s' : AppState)
    (inputs : List (List ℝ)) (hF : s'.noiseFloor = s.noiseFloor)
    (hP : s'.noiseProfile = s.noiseProfile) :
    acceptedOf est c s' inputs = acceptedOf est c s inputs := by
  unfold acceptedOf
  rw [hF, hP]

lemma acceptedOf_cons_accept (est : List ℝ → Option ℝ) (c : Config) (s : AppState)
    (input : List ℝ) (t : List (List ℝ)) (p : ℝ)
    (hp : est (applyGate c.cancelNoise s.noiseProfile input) = some p)
    (hacc : c.cancelNoise = false ∨ s.noiseFloor < p) :
    acceptedOf est c s (input :: t) = p :: acceptedOf est c s t := by
  simp only [acceptedOf, List.filterMap_cons]
  rw [hp]
  simp [hacc]

lemma acceptedOf_cons_none (est : List ℝ → Option ℝ) (c : Config) (s : AppState)
    (input : List ℝ) (t : List (List ℝ))
    (hp : est (applyGate c.cancelNoise s.noiseProfile input) = none) :
    acceptedOf est c s (input :: t) = acceptedOf est c s t := by
  simp only [acceptedOf, List.filterMap_cons]
  rw [hp]

lemma acceptedOf_cons_reject (est : List ℝ → Option ℝ) (c : Config) (s : AppState)
    (input : List ℝ) (t : List (List ℝ)) (p : ℝ)
    (hp : est (applyGate c.cancelNoise s.noiseProfile input) = some p)
    (h1 : c.cancelNoise = true) (h2 : ¬s.noiseFloor < p) :
    acceptedOf est c s (input :: t) = acceptedOf est c s t := by
  simp only [acceptedOf, List.filterMap_cons]
  rw [hp]
  have hcond : ¬(c.cancelNoise = false ∨ s.noiseFloor < p) := by
    intro hor
    rcases hor with h | h
    · rw [h1] at h
      exact Bool.noConfusion h
    · exact h2 h
  simp [hcond]

lemma runEvents_pitch_cons (est : List ℝ → Option ℝ) (c : Config) (s : AppState)
    (input : List ℝ) (es : List Ev) :
    runEvents est c s (Ev.pitch input :: es) =
      runEvents est c (updatePitch est c s input) es := rfl

lemma runEvents_pitchData_foldl (est : List ℝ → Option ℝ) (c : Config) :
    ∀ (inputs : List (List ℝ)) (s : AppState),
      (runEvents est c s (inputs.map Ev.pitch)).pitchData =
        (acceptedOf est c s inputs).foldl (pushPitch c.smoothness) s.pitchData := by
  intro inputs
  induction inputs with
  | nil => intro s; rfl
  | cons input t ih =>
      intro s
      rw [List.map_cons, runEvents_pitch_cons, ih (updatePitch est c s input),
        acceptedOf_congr est c s (updatePitch est c s input) t
          (updatePitch_calib_fields est c s input).1
          (updatePitch_calib_fields est c s input).2.1]
      cases hp : est (applyGate c.cancelNoise s.noiseProfile input) with
      | none =>
          rw [updatePitch_none est c s input hp, acceptedOf_cons_none est c s input t hp]
      | some p =>
          by_cases hacc : c.cancelNoise = false ∨ s.noiseFloor < p
          · rw [updatePitch_accept est c s input p hp hacc,
              acceptedOf_cons_accept est c s input t p hp hacc, List.foldl_cons]
          · push_neg at hacc
            have h1 : c.cancelNoise = true := by
              have := hacc.1
              revert this
              cases c.cancelNoise <;> simp
            rw [updatePitch_rejected est c s input p hp h1 (not_lt.mpr hacc.2),
              acceptedOf_cons_reject est c s input t p hp h1 (not_lt.mpr hacc.2)]

/-- C6 counterexample: the claim says that, after each accepted estimate, the
published history equals the raw list of all accepted pitches smoothed as a
whole and truncated.  With radius 1 and accepted pitches 0, 6, 0 the code
publishes `[3, 2, 3/2]` (it re-smooths its own previously published, already
smoothed output), while smoothing the raw list `[0, 6, 0]` gives
`[3, 2, 3]`. -/
theorem C6_counterexample :
    acceptedOf (fun l => l.head?) ⟨false, 1, 5⟩ initialState [[0], [6], [0]] = [0, 6, 0] ∧
      (runEvents (fun l => l.head?) ⟨false, 1, 5⟩ initialState
          ([[0], [6], [0]].map Ev.pitch)).pitchData = [3, 2, 3 / 2] ∧
      publishedSpec 1 [0, 6, 0] = [3, 2, 3] ∧
      ([3, 2, 3 / 2] : List ℝ) ≠ [3, 2, 3] := by
  have e1 : pushPitch 1 ([] : List ℝ) 0 = [0] := by
    norm_num [pushPitch, lastN, smooth, smoothAt, List.range_succ]
  have e2 : pushPitch 1 ([0] : List ℝ) 6 = [3, 3] := by
    norm_num [pushPitch, lastN, smooth, smoothAt, List.range_succ]
  have e3 : pushPitch 1 ([3, 3] : List ℝ) 0 = [3, 2, 3 / 2] := by
    norm_num [pushPitch, lastN, smooth, smoothAt, List.range_succ]
  refine ⟨?_, ?_, ?_, ?_⟩
  · rw [acceptedOf_cons_accept _ _ _ _ _ 0 rfl (Or.inl rfl),
      acceptedOf_cons_accept _ _ _ _ _ 6 rfl (Or.inl rfl),
      acceptedOf_cons_accept _ _ _ _ _ 0 rfl (Or.inl rfl)]
    rfl
  · rw [runEvents_pitchData_foldl (fun l => l.head?) ⟨false, 1, 5⟩ [[0], [6], [0]] initialState,
      acceptedOf_cons_accept _ _ _ _ _ 0 rfl (Or.inl rfl),
      acceptedOf_cons_accept _ _ _ _ _ 6 rfl (Or.inl rfl),
      acceptedOf_cons_accept _ _ _ _ _ 0 rfl (Or.inl rfl)]
    show ([0, 6, 0] : List ℝ).foldl (pushPitch 1) [] = [3, 2, 3 / 2]
    rw [List.foldl_cons, e1, List.foldl_cons, e2, List.foldl_cons, e3, List.foldl_nil]
  · show lastN 100 (smooth 1 ([0, 6, 0] : List ℝ)) = [3, 2, 3]
    norm_num [lastN, smooth, smoothAt, List.range_succ]
  · intro h
    have := List.getElem_of_eq h (by norm_num : (2 : ℕ) < 3)
    norm_num at this

/-- C6 (amended): while capturing, the published history equals iterating the
per-tick update over the raw sequence of accepted pitches, where each tick
appends the new pitch to the previously published (already smoothed)
history, smooths that entire published list with the current radius, and
truncates to capacity — the smoother reads its own previous output, not a
raw accepted-pitch list kept apart. -/
theorem C6_published_is_iterated (est : List ℝ → Option ℝ) (c : Config) (s : AppState)
    (inputs : List (List ℝ)) :
    (runEvents est c s (inputs.map Ev.pitch)).pitchData =
      (acceptedOf est c s inputs).foldl (pushPitch c.smoothness) s.pitchData :=
  runEvents_pitchData_foldl est c inputs s

lemma calibsOf_calib (f : List ℝ) (t : List Ev) :
    calibsOf (Ev.calib f :: t) = f :: calibsOf t := rfl

lemma calibsOf_pitch (input : List ℝ) (t : List Ev) :
    calibsOf (Ev.pitch input :: t) = calibsOf t := rfl

lemma runEvents_calib_cons (est : List ℝ → Option ℝ) (c : Config) (s : AppState)
    (f : List ℝ) (es : List Ev) :
    runEvents est c s (Ev.calib f :: es) = runEvents est c (calibStep c s f) es := rfl

lemma events_calib_invariant (est : List ℝ → Option ℝ) (c : Config) (M : ℕ) :
    ∀ (es : List Ev) (s : AppState) (gs : List (List ℝ)),
      s.calibFrames = gs.length →
      s.noiseProfile = some (partialProfile M gs) →
      gs.length + (calibsOf es).length < c.calibrationTime * 60 →
      (runEvents est c s es).noiseFloor = s.noiseFloor ∧
        (runEvents est c s es).isCalibrating = s.isCalibrating ∧
        (runEvents est c s es).noiseProfile = some (partialProfile M (gs ++ calibsOf es)) ∧
        (runEvents est c s es).calibFrames = gs.length + (calibsOf es).length := by
  intro es
  induction es with
  | nil =>
      intro s gs h1 h2 _
      refine ⟨rfl, rfl, ?_, ?_⟩
      · show s.noiseProfile = some (partialProfile M (gs ++ calibsOf []))
        rw [show calibsOf [] = [] from rfl, List.append_nil]
        exact h2
      · show s.calibFrames = gs.length + (calibsOf []).length
        rw [show calibsOf [] = [] from rfl, List.length_nil, Nat.add_zero]
        exact h1
  | cons e t ih =>
      intro s gs h1 h2 hlt
      cases e with
      | pitch input =>
          rw [runEvents_pitch_cons, calibsOf_pitch]
          rw [calibsOf_pitch] at hlt
          have hpres := updatePitch_calib_fields est c s input
          have hrec := ih (updatePitch est c s input) gs (hpres.2.2.1.trans h1)
            (hpres.2.1.trans h2) hlt
          exact ⟨hrec.1.trans hpres.1, hrec.2.1.trans hpres.2.2.2.1, hrec.2.2.1, hrec.2.2.2⟩
      | calib f =>
          rw [runEvents_calib_cons, calibsOf_calib]
          rw [calibsOf_calib, List.length_cons] at hlt
          have hpf := calibStep_profile_frames c s f
          have hprof : (calibStep c s f).noiseProfile =
              some (partialProfile M (gs ++ [f])) := by
            rw [hpf.1, partialProfile_snoc, h2, h1]
            by_cases hgs : gs = []
            · rw [if_pos hgs, if_pos (by rw [hgs]; rfl)]
            · rw [if_neg hgs, if_neg (by simpa [List.length_eq_zero] using hgs)]
              rfl
          have hfr : (calibStep c s f).calibFrames = (gs ++ [f]).length := by
            rw [hpf.2, h1, List.length_append, List.length_singleton]
          have hstep := calibStep_incomplete c s f (by rw [h1]; omega)
          have hrec := ih (calibStep c s f) (gs ++ [f]) hfr hprof
            (by rw [List.length_append, List.length_singleton]; omega)
          refine ⟨hrec.1.trans hstep.1, hrec.2.1.trans hstep.2, ?_, ?_⟩
          · rw [hrec.2.2.1, List.append_assoc, List.singleton_append]
          · rw [hrec.2.2.2, List.length_append, List.length_singleton, List.length_cons]
            omega

/-- C10: while a calibration is still consuming its scheduled frames (fewer
than `calibrationTime * 60` calibration frames have arrived, in any
interleaving with pitch ticks), the noise floor seen by every pitch tick is
the one from before the calibration began — on a fresh session 0, since
`noiseFloorRef` starts at 0 — while the profile already equals the partial
bin-wise maximum of just the calibration frames received so far, and the
next pitch tick attenuates with exactly that partial profile and gates
against that old floor. -/
theorem C10_stale_floor_fresh_profile (est : List ℝ → Option ℝ) (c : Config)
    (s : AppState) (M : ℕ) (es : List Ev)
    (hlt : (calibsOf es).length < c.calibrationTime * 60) :
    initialState.noiseFloor = 0 ∧
      (runEvents est c (calibrateStart s M) es).noiseFloor = s.noiseFloor ∧
      (runEvents est c (calibrateStart s M) es).isCalibrating = true ∧
      (runEvents est c (calibrateStart s M) es).noiseProfile =
        some (partialProfile M (calibsOf es)) ∧
      ∀ input p,
        est (applyGate c.cancelNoise (some (partialProfile M (calibsOf es))) input) =
            some p →
        (c.cancelNoise = false ∨ s.noiseFloor < p) →
        (runEvents est c (calibrateStart s M) (es ++ [Ev.pitch input])).pitchData =
          pushPitch c.smoothness
            (runEvents est c (calibrateStart s M) es).pitchData p := by
  have hinv := events_calib_invariant est c M es (calibrateStart s M) [] rfl rfl
    (by simpa using hlt)
  have hprof : (runEvents est c (calibrateStart s M) es).noiseProfile =
      some (partialProfile M (calibsOf es)) := by
    simpa using hinv.2.2.1
  refine ⟨rfl, hinv.1, hinv.2.1, hprof, ?_⟩
  intro input p hp hacc
  have happ : runEvents est c (calibrateStart s M) (es ++ [Ev.pitch input]) =
      updatePitch est c (runEvents est c (calibrateStart s M) es) input := by
    unfold runEvents
    rw [List.foldl_append]
    rfl
  rw [happ]
  have hp' : est (applyGate c.cancelNoise
      (runEvents est c (calibrateStart s M) es).noiseProfile input) = some p := by
    rw [hprof]
    exact hp
  have hacc' : c.cancelNoise = false ∨
      (runEvents est c (calibrateStart s M) es).noiseFloor < p := by
    rcases hacc with h | h
    · exact Or.inl h
    · right
      rw [hinv.1]
      exact h
  rw [updatePitch_accept est c (runEvents est c (calibrateStart s M) es) input p hp' hacc']

/-- Witness for C10 at a concrete input. -/
theorem C10_stale_floor_fresh_profile_witness :
    (runEvents (fun l => l.head?) ⟨true, 0, 5⟩
        (calibrateStart ⟨[], none, true, false, 9, some [4], 7⟩ 2)
        [Ev.calib [1], Ev.pitch [2]]).noiseFloor = 9 ∧
      (runEvents (fun l => l.head?) ⟨true, 0, 5⟩
        (calibrateStart ⟨[], none, true, false, 9, some [4], 7⟩ 2)
        [Ev.calib [1], Ev.pitch [2]]).noiseProfile =
        some (partialProfile 2 [[1]]) := by
  have h := C10_stale_floor_fresh_profile (fun l => l.head?) ⟨true, 0, 5⟩
    ⟨[], none, true, false, 9, some [4], 7⟩ 2 [Ev.calib [1], Ev.pitch [2]]
    (by rw [show calibsOf [Ev.calib [1], Ev.pitch [2]] = [[1]] from rfl]; norm_num)
  exact ⟨h.2.1, h.2.2.2.1⟩

end PitchMeter
